import Mathlib

/-!
Verification of the S&P 500 index-reconstruction computation from
`src/output/_03_SP500_constituents_and_index.py`.

The notebook's inline code (the constituent mask, the market-cap formula,
the cumulative-product of `(1 + ret_approx_B)`, and the inner merge on
`date`) is embedded directly from the source.  The functions of the
`calc_SP500_index` module (`calculate_sp500_total_market_cap`,
`append_actual_sp500_index_and_approx_returns_A`,
`calculate_sp500_returns_with_rebalancing`) are imported by the notebook
but their module is not part of the repository snapshot, so they are
modelled from the spec, as marked in their doc comments.

Numeric columns are embedded as rationals (ℚ); dates as integers.
-/

namespace SP500

/-- A row of `df_constituents` (table `crsp_m_indexes.dsp500list_v2`):
`permno`, membership start date `mbrstartdt`, membership end date
`mbrenddt`.  Columns `indno`, `mbrflg`, `indfam` carry no information
used by the computation (single index family/number) and are omitted. -/
structure MembershipRecord where
  permno : Nat
  mbrstartdt : Int
  mbrenddt : Int
deriving DecidableEq, Repr

/-- The notebook's constituent mask at a query date `d`:
`(df_constituents["mbrstartdt"] <= mydate) & (df_constituents["mbrenddt"] >= mydate)`. -/
def memberOnDate (r : MembershipRecord) (d : Int) : Bool :=
  decide (r.mbrstartdt ≤ d) && decide (r.mbrenddt ≥ d)

/-- `df_constituents[mask]`: the rows of the membership table whose
interval contains the query date. -/
def constituentsOnDate (df : List MembershipRecord) (d : Int) :
    List MembershipRecord :=
  df.filter (fun r => memberOnDate r d)

/-- A row of the CRSP monthly stock file `df_msf`: identifier `permno`,
observation `date`, price `prc`, shares outstanding `shrout`, cumulative
adjustment factors `cfacshr` and `cfacpr`, return with dividends `ret`,
return without dividends `retx`. -/
structure SecurityObs where
  permno : Nat
  date : Int
  prc : ℚ
  shrout : ℚ
  cfacshr : ℚ
  cfacpr : ℚ
  ret : ℚ
  retx : ℚ
deriving DecidableEq, Repr

/-- `df_msf["adj_shrout"] = df_msf["shrout"] * df_msf["cfacshr"]`. -/
def adj_shrout (o : SecurityObs) : ℚ := o.shrout * o.cfacshr

/-- `df_msf["adj_prc"] = df_msf["prc"].abs() / df_msf["cfacpr"]`. -/
def adj_prc (o : SecurityObs) : ℚ := |o.prc| / o.cfacpr

/-- `df_msf["market_cap"] = df_msf["adj_prc"] * df_msf["adj_shrout"]`. -/
def market_cap (o : SecurityObs) : ℚ := adj_prc o * adj_shrout o

/-- Modelled from the spec: `calculate_sp500_total_market_cap` is defined in
the `calc_SP500_index` module, which the notebook imports but which is not
part of the snapshot.  "For each date, sum market_cap over the active
constituent set to get total market cap": sum `market_cap` over the
observations at date `d` whose `permno` has a membership interval
containing `d`. -/
def calculate_sp500_total_market_cap (constituents : List MembershipRecord)
    (msf : List SecurityObs) (d : Int) : ℚ :=
  ((msf.filter (fun o =>
      decide (o.date = d) &&
      constituents.any (fun r => decide (r.permno = o.permno) && memberOnDate r d))).map
    market_cap).sum

/-- Modelled from the spec: the Method A chained level computed by
`append_actual_sp500_index_and_approx_returns_A` (module `calc_SP500_index`,
absent from the snapshot).  "Chain index level:
level(t) = level(t-1) × totalcap(t)/totalcap(t-1), seeded by normalizing to
the official level at the first date."  Time is the position in the date
series, `officialLevel` the official S&P 500 level at the first date. -/
def indexLevelApproxA (totalcap : Nat → ℚ) (officialLevel : ℚ) : Nat → ℚ
  | 0 => officialLevel
  | t + 1 => indexLevelApproxA totalcap officialLevel t * (totalcap (t + 1) / totalcap t)

/-- Modelled from the spec: the `ret_approx_A` column produced by
`append_actual_sp500_index_and_approx_returns_A`.
"Return(t) = level(t)/level(t-1) − 1"; `ret_approx_A totalcap lvl t` is the
return at position `t + 1` of the date series. -/
def ret_approx_A (totalcap : Nat → ℚ) (officialLevel : ℚ) (t : Nat) : ℚ :=
  indexLevelApproxA totalcap officialLevel (t + 1) /
    indexLevelApproxA totalcap officialLevel t - 1

/-- Modelled from the spec: the security-level inputs consumed by
`calculate_sp500_returns_with_rebalancing` (module `calc_SP500_index`,
absent from the snapshot), organised as a panel over securities
`0, …, n−1` and positions `0, 1, …` in the date series: per-security
market caps, returns with (`ret`) and without (`retx`) distributions, the
active-constituent flag, and the quarter-boundary rebalancing flag. -/
structure Panel (n : Nat) where
  marketCap : Nat → Nat → ℚ
  ret : Nat → Nat → ℚ
  retx : Nat → Nat → ℚ
  active : Nat → Nat → Bool
  isRebal : Nat → Bool

/-- Modelled from the spec: total market cap of the active constituents of
panel `p` at position `t` (inactive securities contribute nothing). -/
def totalCap {n : Nat} (p : Panel n) (t : Nat) : ℚ :=
  ∑ i ∈ Finset.range n, if p.active i t then p.marketCap i t else 0

/-- Modelled from the spec: index weight
`w(i,t) = marketCap(i,t) / totalCap(t)` for active constituents, else 0. -/
def indexWeight {n : Nat} (p : Panel n) (i t : Nat) : ℚ :=
  if p.active i t then p.marketCap i t / totalCap p t else 0

/-- Modelled from the spec: Method B portfolio weight,
`w_p(i,t) = w(i,t)` at a rebalancing date and `w_p(i,t-1)` otherwise; the
portfolio is formed at the first date. -/
def portfolioWeight {n : Nat} (p : Panel n) (i : Nat) : Nat → ℚ
  | 0 => indexWeight p i 0
  | t + 1 =>
      if p.isRebal (t + 1) then indexWeight p i (t + 1) else portfolioWeight p i t

/-- Modelled from the spec: Method B portfolio return realized over the
period from position `t` to `t + 1`,
`R_B(t+1) = Σ_i w_p(i,t) · retx(i,t+1)`; only the distribution-excluded
return `retx` appears. -/
def ret_approx_B {n : Nat} (p : Panel n) (t : Nat) : ℚ :=
  ∑ i ∈ Finset.range n, portfolioWeight p i t * p.retx i (t + 1)

/-- Modelled from the spec: Method B index level, chained from the
approximated returns and normalized to the official level at the first
date. -/
def indexLevelApproxB {n : Nat} (p : Panel n) (officialLevel : ℚ) : Nat → ℚ
  | 0 => officialLevel
  | t + 1 => indexLevelApproxB p officialLevel t * (1 + ret_approx_B p t)

/-- The distribution-excluded return implied by a (split-free) price
series: `retx(t+1) = price(t+1)/price(t) − 1`. -/
def retxFromPrice (price : Nat → ℚ) (t : Nat) : ℚ :=
  price (t + 1) / price t - 1

/-- Pandas `Series.cumprod` with running accumulator:
`cumprod acc xs` lists the running products `acc * x₀ * ⋯ * xₖ`. -/
def cumprod : ℚ → List ℚ → List ℚ
  | _, [] => []
  | acc, x :: xs => (acc * x) :: cumprod (acc * x) xs

/-- The notebook's cumulative Method B return:
`sp500_returns_B["cumret_approx_B"] = (1 + sp500_returns_B["ret_approx_B"]).cumprod()`. -/
def cumret_approx_B (rets : List ℚ) : List ℚ :=
  cumprod 1 (rets.map (fun r => 1 + r))

/-- Row-wise inner join of two date-keyed tables on their date column,
keeping a row per matching pair of input rows (pandas
`pd.merge(..., on="date", how="inner")`). -/
def innerMerge {α β : Type} : List (Int × α) → List (Int × β) → List (Int × α × β)
  | [], _ => []
  | x :: xs, ys =>
      ((ys.filter (fun y => decide (y.1 = x.1))).map (fun y => (x.1, x.2, y.2))) ++
        innerMerge xs ys

/-- The notebook's Method B comparison table:
`pd.merge(df_msix[["date", "spindx", "sprtrn"]], sp500_returns_B, on="date",
how="inner")`.  A `msix` row is `(date, (spindx, sprtrn))`; a `returnsB`
row is `(date, ret_approx_B)`. -/
def mergeMsixWithReturnsB (msix : List (Int × ℚ × ℚ))
    (returnsB : List (Int × ℚ)) : List (Int × (ℚ × ℚ) × ℚ) :=
  innerMerge msix returnsB

/-- A concrete two-security panel matching the spec's example: caps 100
and 200, both active everywhere, rebalancing at even positions. -/
def examplePanel : Panel 2 :=
  ⟨fun i _ => if i = 0 then 100 else 200,
   fun _ _ => 3 / 100,
   fun i _ => if i = 0 then 1 / 100 else 2 / 100,
   fun _ _ => true,
   fun t => decide (t % 2 = 0)⟩

end SP500

namespace SP500

/-- C2: a membership record is selected by the notebook's mask at a query
date exactly when `mbrstartdt ≤ date ≤ mbrenddt`; both bounds are
inclusive, so membership starting or ending exactly on the query date
still counts. -/
theorem constituent_mask_inclusive (df : List MembershipRecord)
    (r : MembershipRecord) (d : Int) :
    (r ∈ constituentsOnDate df d ↔
      r ∈ df ∧ (r.mbrstartdt ≤ d ∧ d ≤ r.mbrenddt)) ∧
    (r.mbrstartdt = d → d ≤ r.mbrenddt → memberOnDate r d = true) ∧
    (r.mbrenddt = d → r.mbrstartdt ≤ d → memberOnDate r d = true) := by
  refine ⟨?_, ?_, ?_⟩
  · simp [constituentsOnDate, memberOnDate, ge_iff_le, and_comm]
  · intro h1 h2
    simp [memberOnDate, h1.le, ge_iff_le, h2]
  · intro h1 h2
    simp [memberOnDate, h1.ge, ge_iff_le, h2]

/-- Witness for C2 at a concrete record whose membership starts exactly
on the query date. -/
theorem constituent_mask_inclusive_witness :
    let r : MembershipRecord := ⟨10001, 50, 90⟩
    (r ∈ constituentsOnDate [r] 50 ↔
      r ∈ [r] ∧ (r.mbrstartdt ≤ 50 ∧ (50 : Int) ≤ r.mbrenddt)) ∧
    memberOnDate ⟨10001, 50, 90⟩ 50 = true ∧ memberOnDate ⟨10001, 10, 50⟩ 50 = true := by
  refine ⟨(constituent_mask_inclusive [⟨10001, 50, 90⟩] ⟨10001, 50, 90⟩ 50).1,
    (constituent_mask_inclusive [] ⟨10001, 50, 90⟩ 50).2.1 rfl (by decide),
    (constituent_mask_inclusive [] ⟨10001, 10, 50⟩ 50).2.2 rfl (by decide)⟩

/-- C7: the derived fields satisfy `adj_shrout = shrout * cfacshr`,
`adj_prc = |prc| / cfacpr` and `market_cap = adj_prc * adj_shrout`; the
absolute value is taken before adjustment, so negating the raw price
(CRSP's quote-midpoint convention) leaves the market cap unchanged. -/
theorem market_cap_formula (o : SecurityObs) :
    adj_shrout o = o.shrout * o.cfacshr ∧
    adj_prc o = |o.prc| / o.cfacpr ∧
    market_cap o = adj_prc o * adj_shrout o ∧
    ∀ o' : SecurityObs, o'.prc = -o.prc → o'.shrout = o.shrout →
      o'.cfacshr = o.cfacshr → o'.cfacpr = o.cfacpr →
      market_cap o' = market_cap o := by
  refine ⟨rfl, rfl, rfl, ?_⟩
  intro o' hp hs hcs hcp
  simp [market_cap, adj_prc, adj_shrout, hp, hs, hcs, hcp, abs_neg]

/-- Witness for C7: an observation with raw price `-3` (quote midpoint)
has the same market cap as the corresponding observation with price `3`. -/
theorem market_cap_formula_witness :
    market_cap ⟨10001, 0, -3, 100, 2, 1, 0, 0⟩ =
      market_cap ⟨10001, 0, 3, 100, 2, 1, 0, 0⟩ :=
  (market_cap_formula ⟨10001, 0, 3, 100, 2, 1, 0, 0⟩).2.2.2
    ⟨10001, 0, -3, 100, 2, 1, 0, 0⟩ rfl rfl rfl rfl

/-- C6: the total market cap at a date is the sum of market caps of
exactly those observations at that date whose security has a membership
interval containing the date; no other security contributes. -/
theorem total_market_cap_active_sum (constituents : List MembershipRecord)
    (msf : List SecurityObs) (d : Int) :
    calculate_sp500_total_market_cap constituents msf d =
      ((msf.filter (fun o => decide (o.date = d ∧ ∃ r ∈ constituents,
          r.permno = o.permno ∧ r.mbrstartdt ≤ d ∧ d ≤ r.mbrenddt))).map
        market_cap).sum := by
  unfold calculate_sp500_total_market_cap
  have hf : List.filter (fun o =>
        decide (o.date = d) &&
        constituents.any (fun r => decide (r.permno = o.permno) && memberOnDate r d)) msf =
      List.filter (fun o => decide (o.date = d ∧ ∃ r ∈ constituents,
        r.permno = o.permno ∧ r.mbrstartdt ≤ d ∧ d ≤ r.mbrenddt)) msf := by
    apply List.filter_congr
    intro o _
    apply Bool.eq_iff_iff.mpr
    simp [memberOnDate, List.any_eq_true, ge_iff_le, and_assoc]
  rw [hf]

/-- Every Method A chained level is nonzero when the seed and every total
market cap are nonzero. -/
theorem indexLevelApproxA_ne_zero (totalcap : Nat → ℚ) (lvl : ℚ)
    (hl : lvl ≠ 0) (htc : ∀ s, totalcap s ≠ 0) (t : Nat) :
    indexLevelApproxA totalcap lvl t ≠ 0 := by
  induction t with
  | zero => exact hl
  | succ t ih =>
      exact mul_ne_zero ih (div_ne_zero (htc (t + 1)) (htc t))

/-- C1: the Method A level satisfies the chain recurrence
`level(t+1) = level(t) · totalcap(t+1)/totalcap(t)`, its value at the
first date is the official level (the normalization seed), and the Method
A return is `level(t+1)/level(t) − 1`, which simplifies to
`totalcap(t+1)/totalcap(t) − 1` when the seed and the total caps are
nonzero. -/
theorem methodA_chain_level_and_returns (totalcap : Nat → ℚ) (lvl : ℚ)
    (hl : lvl ≠ 0) (htc : ∀ s, totalcap s ≠ 0) :
    indexLevelApproxA totalcap lvl 0 = lvl ∧
    (∀ t, indexLevelApproxA totalcap lvl (t + 1) =
      indexLevelApproxA totalcap lvl t * (totalcap (t + 1) / totalcap t)) ∧
    (∀ t, ret_approx_A totalcap lvl t =
      indexLevelApproxA totalcap lvl (t + 1) /
        indexLevelApproxA totalcap lvl t - 1) ∧
    (∀ t, ret_approx_A totalcap lvl t = totalcap (t + 1) / totalcap t - 1) := by
  refine ⟨rfl, fun t => rfl, fun t => rfl, fun t => ?_⟩
  have hlvl := indexLevelApproxA_ne_zero totalcap lvl hl htc t
  unfold ret_approx_A
  rw [show indexLevelApproxA totalcap lvl (t + 1) =
      indexLevelApproxA totalcap lvl t * (totalcap (t + 1) / totalcap t) from rfl,
    mul_div_cancel_left₀ _ hlvl]

/-- Witness for C1 at `totalcap s = s + 1`, official seed level `5`:
the first Method A return is `2/1 − 1 = 1`. -/
theorem methodA_chain_level_and_returns_witness :
    ret_approx_A (fun s => (s : ℚ) + 1) 5 0 = 1 := by
  have h := (methodA_chain_level_and_returns (fun s => (s : ℚ) + 1) 5
    (by norm_num) (fun s => by positivity)).2.2.2 0
  rw [h]
  norm_num

/-- The Method B portfolio weight never inspects the
distribution-included return column: panels agreeing on market caps,
active flags and rebalancing flags have the same weights. -/
theorem portfolioWeight_ret_irrel {n : Nat} (p q : Panel n)
    (hmc : p.marketCap = q.marketCap) (hac : p.active = q.active)
    (hrb : p.isRebal = q.isRebal) (i t : Nat) :
    portfolioWeight p i t = portfolioWeight q i t := by
  induction t with
  | zero => simp [portfolioWeight, indexWeight, totalCap, hmc, hac]
  | succ t ih =>
      simp [portfolioWeight, indexWeight, totalCap, hmc, hac, hrb, ih]

/-- C3: the Method B return over each period is the sum of the previous
portfolio weights times the distribution-excluded returns `retx`, and it
is unchanged under any modification of the distribution-included returns
`ret`: `ret` is never used in the Method B computation. -/
theorem methodB_return_weighted_retx {n : Nat} (p q : Panel n)
    (hmc : p.marketCap = q.marketCap) (hrx : p.retx = q.retx)
    (hac : p.active = q.active) (hrb : p.isRebal = q.isRebal) (t : Nat) :
    ret_approx_B p t =
      (∑ i ∈ Finset.range n, portfolioWeight p i t * p.retx i (t + 1)) ∧
    ret_approx_B p t = ret_approx_B q t := by
  refine ⟨rfl, ?_⟩
  unfold ret_approx_B
  rw [hrx]
  exact Finset.sum_congr rfl (fun i _ => by
    rw [portfolioWeight_ret_irrel p q hmc hac hrb i t])

/-- Witness for C3: two single-security panels that agree on everything
except the distribution-included return `ret` (7 vs 9) produce the same
Method B return. -/
theorem methodB_return_weighted_retx_witness :
    ret_approx_B
        (⟨fun _ _ => 100, fun _ _ => 7, fun _ _ => 1 / 2, fun _ _ => true,
          fun _ => true⟩ : Panel 1) 0 =
      ret_approx_B
        (⟨fun _ _ => 100, fun _ _ => 9, fun _ _ => 1 / 2, fun _ _ => true,
          fun _ => true⟩ : Panel 1) 0 :=
  (methodB_return_weighted_retx
    (⟨fun _ _ => 100, fun _ _ => 7, fun _ _ => 1 / 2, fun _ _ => true,
      fun _ => true⟩ : Panel 1)
    (⟨fun _ _ => 100, fun _ _ => 9, fun _ _ => 1 / 2, fun _ _ => true,
      fun _ => true⟩ : Panel 1) rfl rfl rfl rfl 0).2

/-- C4: away from rebalancing dates the Method B portfolio weight of
every security stays what it was one period before, whatever happened to
market caps; at a rebalancing date every weight is reset to
`marketCap/totalCap` for active constituents and `0` otherwise. -/
theorem methodB_weights_frozen {n : Nat} (p : Panel n) (t : Nat) :
    (p.isRebal (t + 1) = false →
      ∀ i, portfolioWeight p i (t + 1) = portfolioWeight p i t) ∧
    (p.isRebal (t + 1) = true →
      ∀ i, portfolioWeight p i (t + 1) =
        if p.active i (t + 1) then
          p.marketCap i (t + 1) / totalCap p (t + 1)
        else 0) := by
  constructor
  · intro h i
    simp [portfolioWeight, h]
  · intro h i
    simp [portfolioWeight, h, indexWeight]

/-- Witness for C4 on the concrete example panel: position 1 is not a
rebalancing date so the weight is carried over; position 2 is one so the
weight is reset. -/
theorem methodB_weights_frozen_witness :
    portfolioWeight examplePanel 0 1 = portfolioWeight examplePanel 0 0 ∧
    portfolioWeight examplePanel 0 2 =
      if examplePanel.active 0 2 then
        examplePanel.marketCap 0 2 / totalCap examplePanel 2
      else 0 :=
  ⟨(methodB_weights_frozen examplePanel 0).1 rfl 0,
   (methodB_weights_frozen examplePanel 1).2 rfl 0⟩

/-- C5: at any rebalancing date with nonzero total market cap, the Method
B portfolio weights over the securities sum exactly to 1, and every
inactive security has weight 0, so the whole mass sits on the active
constituent set. -/
theorem methodB_rebalance_weights_sum_one {n : Nat} (p : Panel n) (t : Nat)
    (hreb : p.isRebal t = true) (htot : totalCap p t ≠ 0) :
    (∑ i ∈ Finset.range n, portfolioWeight p i t) = 1 ∧
    (∀ i, p.active i t = false → portfolioWeight p i t = 0) := by
  have hw : ∀ i, portfolioWeight p i t = indexWeight p i t := by
    intro i
    cases t with
    | zero => rfl
    | succ s => simp [portfolioWeight, hreb]
  constructor
  · calc (∑ i ∈ Finset.range n, portfolioWeight p i t)
        = ∑ i ∈ Finset.range n, indexWeight p i t :=
          Finset.sum_congr rfl (fun i _ => hw i)
      _ = (∑ i ∈ Finset.range n,
            if p.active i t then p.marketCap i t else 0) / totalCap p t := by
          rw [Finset.sum_div]
          exact Finset.sum_congr rfl (fun i _ => by
            by_cases h : p.active i t <;> simp [indexWeight, h])
      _ = totalCap p t / totalCap p t := rfl
      _ = 1 := div_self htot
  · intro i hi
    rw [hw i]
    simp [indexWeight, hi]

/-- Witness for C5 on the spec's example: caps 100 and 200 give weights
`1/3` and `2/3`, which sum to 1, at the rebalancing date 0. -/
theorem methodB_rebalance_weights_sum_one_witness :
    (∑ i ∈ Finset.range 2, portfolioWeight examplePanel i 0) = 1 ∧
    portfolioWeight examplePanel 0 0 = 1 / 3 ∧
    portfolioWeight examplePanel 1 0 = 2 / 3 := by
  have htot : totalCap examplePanel 0 = 300 := by
    simp [totalCap, examplePanel, Finset.sum_range_succ]
    norm_num
  refine ⟨(methodB_rebalance_weights_sum_one examplePanel 0 rfl
      (by rw [htot]; norm_num)).1, ?_, ?_⟩
  · show indexWeight examplePanel 0 0 = 1 / 3
    rw [indexWeight, htot]
    norm_num [examplePanel]
  · show indexWeight examplePanel 1 0 = 2 / 3
    rw [indexWeight, htot]
    norm_num [examplePanel]

/-- C8: with a single constituent active throughout, constant total
market cap equal to the (nonzero) market cap of a fixed observation, and
`retx` implied by the constant price series, Method A and Method B both
yield the constant index level `lvl` (the normalization seed) and zero
returns after the first date. -/
theorem roundtrip_constant_single_constituent (obs : SecurityObs)
    (lvl : ℚ) (hl : lvl ≠ 0) (hmc : market_cap obs ≠ 0)
    (totalcap : Nat → ℚ) (htc : ∀ t, totalcap t = market_cap obs)
    (price : Nat → ℚ) (hpconst : ∀ t, price t = obs.prc) (hp0 : obs.prc ≠ 0)
    (p : Panel 1) (_hact : ∀ t, p.active 0 t = true)
    (hrx : ∀ t, p.retx 0 t = retxFromPrice price t) (t : Nat) :
    indexLevelApproxA totalcap lvl t = lvl ∧
    ret_approx_A totalcap lvl t = 0 ∧
    indexLevelApproxB p lvl t = lvl ∧
    ret_approx_B p t = 0 := by
  have hretx0 : ∀ s, p.retx 0 s = 0 := by
    intro s
    rw [hrx s, retxFromPrice, hpconst, hpconst, div_self hp0]
    ring
  have hretB : ∀ s, ret_approx_B p s = 0 := by
    intro s
    simp [ret_approx_B, hretx0]
  have hA : ∀ s, indexLevelApproxA totalcap lvl s = lvl := by
    intro s
    induction s with
    | zero => rfl
    | succ s ih =>
        show indexLevelApproxA totalcap lvl s *
          (totalcap (s + 1) / totalcap s) = lvl
        rw [ih, htc, htc, div_self hmc, mul_one]
  have hB : ∀ s, indexLevelApproxB p lvl s = lvl := by
    intro s
    induction s with
    | zero => rfl
    | succ s ih =>
        show indexLevelApproxB p lvl s * (1 + ret_approx_B p s) = lvl
        rw [ih, hretB, add_zero, mul_one]
  refine ⟨hA t, ?_, hB t, hretB t⟩
  rw [ret_approx_A, hA, hA, div_self hl]
  ring

/-- Witness for C8: a single security priced constantly at 3 with 100
shares (market cap 300), seed level 5, gives level 5 and zero returns at
position 2 under both methods. -/
theorem roundtrip_constant_single_constituent_witness :
    indexLevelApproxA (fun _ => market_cap ⟨1, 0, 3, 100, 1, 1, 0, 0⟩) 5 2 = 5 ∧
    ret_approx_A (fun _ => market_cap ⟨1, 0, 3, 100, 1, 1, 0, 0⟩) 5 2 = 0 ∧
    indexLevelApproxB
      (⟨fun _ _ => 300, fun _ _ => 0,
        fun _ s => retxFromPrice (fun _ => 3) s, fun _ _ => true,
        fun t => decide (t % 2 = 0)⟩ : Panel 1) 5 2 = 5 ∧
    ret_approx_B
      (⟨fun _ _ => 300, fun _ _ => 0,
        fun _ s => retxFromPrice (fun _ => 3) s, fun _ _ => true,
        fun t => decide (t % 2 = 0)⟩ : Panel 1) 2 = 0 :=
  roundtrip_constant_single_constituent ⟨1, 0, 3, 100, 1, 1, 0, 0⟩ 5
    (by norm_num)
    (by norm_num [market_cap, adj_prc, adj_shrout])
    (fun _ => market_cap ⟨1, 0, 3, 100, 1, 1, 0, 0⟩) (fun _ => rfl)
    (fun _ => 3) (fun _ => rfl) (by norm_num)
    (⟨fun _ _ => 300, fun _ _ => 0,
      fun _ s => retxFromPrice (fun _ => 3) s, fun _ _ => true,
      fun t => decide (t % 2 = 0)⟩ : Panel 1)
    (fun _ => rfl) (fun _ => rfl) 2

/-- Every entry of a running cumulative product is the accumulator times
the product of the prefix up to that entry. -/
theorem cumprod_entry (xs : List ℚ) (acc : ℚ) (k : Nat)
    (hk : k < xs.length) :
    (cumprod acc xs)[k]? = some (acc * (xs.take (k + 1)).prod) := by
  induction xs generalizing acc k with
  | nil => simp at hk
  | cons x xs ih =>
      cases k with
      | zero => simp [cumprod]
      | succ k =>
          have hk' : k < xs.length := by
            simpa using hk
          simp [cumprod, ih (acc * x) k hk', mul_assoc]

/-- C9: the notebook's `cumret_approx_B` column is the running product
`∏_{s ≤ k} (1 + ret_approx_B(s))`; at the first date of the series it
equals `1 + ret_approx_B(first)`, which differs from 1 whenever the first
return is nonzero, so the series is not anchored at exactly 1. -/
theorem cumret_approx_B_running_product (rets : List ℚ) :
    (∀ k, k < rets.length →
      (cumret_approx_B rets)[k]? =
        some (((rets.take (k + 1)).map (fun r => 1 + r)).prod)) ∧
    (∀ r rest, rets = r :: rest →
      (cumret_approx_B rets).head? = some (1 + r)) ∧
    (∀ r rest, rets = r :: rest → r ≠ 0 →
      (cumret_approx_B rets).head? ≠ some 1) := by
  refine ⟨?_, ?_, ?_⟩
  · intro k hk
    have hk' : k < (rets.map (fun r => 1 + r)).length := by
      simpa using hk
    rw [cumret_approx_B, cumprod_entry (rets.map (fun r => 1 + r)) 1 k hk',
      one_mul, List.map_take]
  · intro r rest hr
    subst hr
    simp [cumret_approx_B, cumprod]
  · intro r rest hr hr0
    subst hr
    simp only [cumret_approx_B, List.map_cons, cumprod, one_mul,
      List.head?_cons, ne_eq, Option.some.injEq]
    intro h
    exact hr0 (by linarith)

/-- Witness for C9 on the series `[1/2, 1]`: the second cumulative entry
is the prefix product and the first entry is `3/2 ≠ 1`. -/
theorem cumret_approx_B_running_product_witness :
    (cumret_approx_B [1 / 2, 1])[1]? =
      some ((([(1 : ℚ) / 2, 1].take 2).map (fun r => 1 + r)).prod) ∧
    (cumret_approx_B [1 / 2, 1]).head? ≠ some 1 :=
  ⟨(cumret_approx_B_running_product [1 / 2, 1]).1 1 (by norm_num),
   (cumret_approx_B_running_product [1 / 2, 1]).2.2 (1 / 2) [1] rfl
     (by norm_num)⟩

/-- A date occurs in the row-wise inner join exactly when it occurs in
both inputs. -/
theorem innerMerge_mem_fst {α β : Type} (xs : List (Int × α))
    (ys : List (Int × β)) (d : Int) :
    d ∈ (innerMerge xs ys).map Prod.fst ↔
      d ∈ xs.map Prod.fst ∧ d ∈ ys.map Prod.fst := by
  induction xs with
  | nil => simp [innerMerge]
  | cons x xs ih =>
      simp only [innerMerge, List.map_append, List.mem_append, ih,
        List.map_cons, List.mem_cons, List.map_map, List.mem_map,
        List.mem_filter, Function.comp, decide_eq_true_eq]
      constructor
      · rintro (⟨y, ⟨hy, hyx⟩, hd⟩ | ⟨h1, h2⟩)
        · exact ⟨Or.inl hd.symm, ⟨y, hy, by rw [hyx, ← hd]⟩⟩
        · exact ⟨Or.inr h1, h2⟩
      · rintro ⟨h1 | h1, h2⟩
        · obtain ⟨y, hy, hyd⟩ := h2
          exact Or.inl ⟨y, ⟨hy, by rw [hyd, h1]⟩, h1.symm⟩
        · exact Or.inr ⟨h1, h2⟩

/-- C10: a date appears in the notebook's merged Method B comparison
table exactly when it appears both in the official index series
`df_msix` and in the Method B output; dates present in only one input
are dropped. -/
theorem mergeMsixWithReturnsB_dates (msix : List (Int × ℚ × ℚ))
    (returnsB : List (Int × ℚ)) (d : Int) :
    d ∈ (mergeMsixWithReturnsB msix returnsB).map Prod.fst ↔
      d ∈ msix.map Prod.fst ∧ d ∈ returnsB.map Prod.fst :=
  innerMerge_mem_fst msix returnsB d

end SP500
